import Mathlib

/-!
Verification of the OpenClaw observability dashboard's log-reconstruction
engine (server.mjs) against its natural-language specification.

The JavaScript source is shallowly embedded: JSON event records become a
flat structure with optional fields (mirroring duck-typed property access),
JS strings become Lean strings (character-for-character; all relevant
characters are in the BMP so JS UTF-16 comparisons coincide with Lean's
character comparisons), JS string truthiness is modelled explicitly, and
file-system reads are passed in as function parameters at the external
boundary.  Nothing of the record-folding logic is stubbed.
-/

namespace Openclaw

/-- JS string truthiness for an optional string field: truthy iff present and
non-empty (undefined and the empty string are falsy). -/
def strTruthy (o : Option String) : Bool :=
  !((o.getD "") == "")

/-- JS lexicographic string comparison (the < of the abstract relational
comparison on two strings), on character sequences: compare code units
position by position, a strict prefix is smaller.  All characters appearing
in the logs are in the BMP, where Lean code points and JS UTF-16 code units
agree. -/
def jsLtChars : List Char → List Char → Bool
  | [], [] => false
  | [], _ :: _ => true
  | _ :: _, [] => false
  | a :: as, b :: bs =>
      if a.toNat < b.toNat then true
      else if b.toNat < a.toNat then false
      else jsLtChars as bs

/-- JS s < t on strings. -/
def jsLt (s t : String) : Bool :=
  jsLtChars s.data t.data

/-- JS whitespace test used by String.prototype.trim (the characters that
occur in practice). -/
def jsWhitespace (c : Char) : Bool :=
  c = ' ' ∨ c = '\t' ∨ c = '\n' ∨ c = '\r'

/-- JS String.prototype.trim: strip leading and trailing whitespace. -/
def jsTrim (s : String) : String :=
  ⟨((s.data.dropWhile jsWhitespace).reverse.dropWhile jsWhitespace).reverse⟩

/-- Embeds: function truncate(s, max) from server.mjs
(s.length <= max ? s : s.slice(0, max) + "…").  JS slice(0, max) takes the
first max characters; the ellipsis is a single character. -/
def truncate (s : String) (max : Nat) : String :=
  if s.length ≤ max then s else ⟨s.data.take max ++ ['…']⟩

/-- Nested data of a custom model-snapshot record (e.data). -/
structure MData where
  modelId : Option String := none
  provider : Option String := none
deriving DecidableEq

/-- usage.cost object of a message record. -/
structure CostObj where
  total : Option Rat := none
deriving DecidableEq

/-- usage object of a message record.  Token counts are JS numbers; the
claims concern only sums, modelled over the integers. -/
structure Usage where
  input : Option Int := none
  output : Option Int := none
  cacheRead : Option Int := none
  totalTokens : Option Int := none
  cost : Option CostObj := none
deriving DecidableEq

/-- Arguments object of a toolCall block.  The fields the code reads
(args.task, args.message, args.model) are explicit; serialized stands for
JSON.stringify of the whole object (an opaque external serialisation). -/
structure Args where
  task : Option String := none
  message : Option String := none
  model : Option String := none
  serialized : String := "\x7b\x7d"
deriving DecidableEq

/-- A sub-block of a toolResult block's array content: either a text
sub-block (rc.type === "text", carrying rc.text) or anything else. -/
inductive SubB where
  | text (t : Option String)
  | other
deriving DecidableEq

/-- Content of a toolResult block: a plain string, an array of sub-blocks,
or anything else (undefined, object, ...). -/
inductive RContent where
  | str (s : String)
  | arr (subs : List SubB)
  | other
deriving DecidableEq

/-- A message content block, tagged by its b.type field. -/
inductive Block where
  | text (t : Option String)
  | toolCall (toolCallId : Option String) (toolName : Option String) (args : Option Args)
  | toolResult (toolCallId : Option String) (toolName : Option String) (content : RContent)
  | other
deriving DecidableEq

/-- message.content: a plain string, an array of blocks, or anything else. -/
inductive Content where
  | str (s : String)
  | blocks (bs : List Block)
  | other
deriving DecidableEq

/-- The nested message object of a message record. -/
structure Message where
  role : Option String := none
  channel : Option String := none
  usage : Option Usage := none
  content : Content := Content.other
deriving DecidableEq

/-- A decoded JSONL event record.  As in the duck-typed JS source, all
fields exist on all records and are simply absent (none) when the record's
type does not carry them. -/
structure Record where
  type : String
  timestamp : Option String := none
  id : Option String := none
  modelId : Option String := none
  provider : Option String := none
  customType : Option String := none
  data : Option MData := none
  message : Option Message := none
deriving DecidableEq

/-- JSON.stringify(b.args ?? \x7b\x7d) for an optional args object. -/
def serializeArgsOpt (o : Option Args) : String :=
  match o with
  | some a => a.serialized
  | none => "\x7b\x7d"

/-- Text preview extracted from a toolResult block's content: the string
itself, or the concatenation of all text sub-blocks of an array (rc.text
defaulting to ""), or "" otherwise.  This logic appears verbatim in both
parseTranscript and extractCommands in server.mjs. -/
def resultText (c : RContent) : String :=
  match c with
  | .str s => s
  | .arr subs =>
      subs.foldl (fun p rc =>
        match rc with
        | .text t => p ++ t.getD ""
        | .other => p) ""
  | .other => ""

/-- Accumulated token usage (the tok object of parseSessionSummary). -/
structure TokenUsage where
  input : Int
  output : Int
  cacheRead : Int
  total : Int
deriving DecidableEq

/-- One detected sub-agent spawn (element of subAgents). -/
structure SubAgent where
  task : String
  model : Option String
  timestamp : Option String
deriving DecidableEq

/-- The session summary object returned by parseSessionSummary. -/
structure Summary where
  id : String
  file : String
  startTime : Option String
  lastActivity : Option String
  model : Option String
  provider : Option String
  channel : Option String
  messageCount : Nat
  tokenUsage : TokenUsage
  cost : Rat
  subAgents : List SubAgent
deriving DecidableEq

/-- Loop-local accumulator state of the fold in parseSessionSummary. -/
structure SState where
  model : Option String
  provider : Option String
  channel : Option String
  lastTs : Option String
  msgCount : Nat
  tokInput : Int
  tokOutput : Int
  tokCacheRead : Int
  tokTotal : Int
  cost : Rat
  subAgents : List SubAgent
deriving DecidableEq

/-- Loop step, part 1: if (e.timestamp && e.timestamp > lastTs) update.
A falsy (absent or empty) e.timestamp never updates; when lastTs is
undefined the JS comparison string > undefined is always false, so an
undefined lastTs is never updated either. -/
def stepTs (st : SState) (e : Record) : SState :=
  match e.timestamp, st.lastTs with
  | some t, some cur =>
      if t ≠ "" ∧ jsLt cur t then { st with lastTs := some t } else st
  | _, _ => st

/-- Loop step, part 2: the model_change branch
(model = e.modelId ?? model; provider = e.provider ?? provider). -/
def stepMC (st : SState) (e : Record) : SState :=
  if e.type = "model_change" then
    { st with model := e.modelId.or st.model,
              provider := e.provider.or st.provider }
  else st

/-- Loop step, part 3: the custom model-snapshot branch, guarded by a
truthy e.data (model = e.data.modelId ?? model; likewise provider). -/
def stepSnap (st : SState) (e : Record) : SState :=
  if e.type = "custom" ∧ e.customType = some "model-snapshot" then
    match e.data with
    | some d =>
        { st with model := d.modelId.or st.model,
                  provider := d.provider.or st.provider }
    | none => st
  else st

/-- Sub-agent detection for one content block: toolCall blocks named
sessions_spawn or subagents record task (args.task ?? args.message ??
JSON.stringify(args ?? \x7b\x7d), truncated to 200), args.model, and
e.timestamp ?? lastTs. -/
def subAgentOf (ets lastTs : Option String) (b : Block) : Option SubAgent :=
  match b with
  | .toolCall _ name args =>
      if name = some "sessions_spawn" ∨ name = some "subagents" then
        some { task := truncate (((args.bind Args.task).or
                        (args.bind Args.message)).getD (serializeArgsOpt args)) 200,
               model := args.bind Args.model,
               timestamp := ets.or lastTs }
      else none
  | _ => none

/-- Loop step, part 4: the message branch (msgCount, channel, token/cost
accumulation, sub-agent detection). -/
def stepMsg (st : SState) (e : Record) : SState :=
  if e.type = "message" then
    let st1 := { st with msgCount := st.msgCount + 1 }
    match e.message with
    | none => st1
    | some m =>
        let st2 := if ¬ strTruthy st1.channel ∧ strTruthy m.channel then
                     { st1 with channel := m.channel }
                   else st1
        let st3 :=
          match m.usage with
          | none => st2
          | some u =>
              let st2a := { st2 with
                tokInput := st2.tokInput + (u.input.getD 0),
                tokOutput := st2.tokOutput + (u.output.getD 0),
                tokCacheRead := st2.tokCacheRead + (u.cacheRead.getD 0),
                tokTotal := st2.tokTotal + (u.totalTokens.getD 0) }
              match u.cost.bind CostObj.total with
              | some t => if t ≠ 0 then { st2a with cost := st2a.cost + t } else st2a
              | none => st2a
        match m.content with
        | .blocks bs =>
            { st3 with subAgents :=
                st3.subAgents ++ bs.filterMap (subAgentOf e.timestamp st3.lastTs) }
        | _ => st3
  else st

/-- One full loop iteration of parseSessionSummary, in source order. -/
def step (st : SState) (e : Record) : SState :=
  stepMsg (stepSnap (stepMC (stepTs st e) e) e) e

/-- Accumulator initialisation before the loop (lastTs = first.timestamp). -/
def initState (first : Record) : SState :=
  { model := none, provider := none, channel := none,
    lastTs := first.timestamp, msgCount := 0,
    tokInput := 0, tokOutput := 0, tokCacheRead := 0, tokTotal := 0,
    cost := 0, subAgents := [] }

/-- Embeds parseSessionSummary from server.mjs, over the decoded record
sequence of one file.  baseNoExt and baseFull stand for
path.basename(filePath, ".jsonl") and path.basename(filePath) (external
path arithmetic on the caller-supplied file path). -/
def parseSessionSummary (baseNoExt baseFull : String) (entries : List Record) :
    Option Summary :=
  match entries with
  | [] => none
  | first :: _ =>
      if first.type ≠ "session" then none
      else
        let st := entries.foldl step (initState first)
        some { id := first.id.getD baseNoExt,
               file := baseFull,
               startTime := first.timestamp,
               lastActivity := st.lastTs,
               model := st.model,
               provider := st.provider,
               channel := st.channel,
               messageCount := st.msgCount,
               tokenUsage := { input := st.tokInput, output := st.tokOutput,
                               cacheRead := st.tokCacheRead, total := st.tokTotal },
               cost := st.cost,
               subAgents := st.subAgents }

/-- A transcript entry produced by parseTranscript, tagged as in the
JS objects pushed onto result. -/
inductive TEntry where
  | modelChange (timestamp : String) (content : String)
  | chat (etype : String) (timestamp : String) (role : Option String) (content : String)
  | toolCallE (timestamp : String) (toolName : Option String) (toolArgs : String)
  | toolResultE (timestamp : String) (toolName : Option String) (result : String)
deriving DecidableEq

/-- role === "user" ? "user" : role === "assistant" ? "assistant" : "system". -/
def roleType (role : Option String) : String :=
  if role = some "user" then "user"
  else if role = some "assistant" then "assistant"
  else "system"

/-- Entry pushed (or not) for one content block in parseTranscript's inner
loop: text blocks only when b.text?.trim() is truthy, toolCall and
toolResult blocks always, other blocks never. -/
def blockEntry (ts : String) (role : Option String) (b : Block) : Option TEntry :=
  match b with
  | .text t =>
      match t with
      | some txt =>
          if jsTrim txt ≠ "" then
            some (.chat (roleType role) ts role (truncate txt 2000))
          else none
      | none => none
  | .toolCall _ name args =>
      some (.toolCallE ts name (truncate (serializeArgsOpt args) 1000))
  | .toolResult _ name content =>
      some (.toolResultE ts name (truncate (resultText content) 500))
  | .other => none

/-- Entries pushed for one record in parseTranscript's outer loop. -/
def recordEntries (e : Record) : List TEntry :=
  let ts := e.timestamp.getD ""
  if e.type = "model_change" then
    [.modelChange ts ("Model → " ++ (e.provider.getD "") ++ "/" ++ (e.modelId.getD ""))]
  else if e.type = "message" then
    match e.message with
    | none => []
    | some m =>
        match m.content with
        | .str s => [.chat (roleType m.role) ts m.role (truncate s 2000)]
        | .blocks bs => bs.filterMap (blockEntry ts m.role)
        | .other => []
  else []

/-- Embeds parseTranscript from server.mjs: a single pass over the decoded
records, appending each record's entries to the result (result.push). -/
def parseTranscript (entries : List Record) : List TEntry :=
  entries.foldl (fun res e => res ++ recordEntries e) []

/-- Value stored in the per-message calls map of extractCommands. -/
structure CallInfo where
  name : Option String
  args : String
  ts : String
deriving DecidableEq

/-- A command entry produced by extractCommands. -/
structure Cmd where
  sessionId : String
  sessionFile : String
  timestamp : String
  toolName : Option String
  args : String
  resultPreview : String
deriving DecidableEq

/-- JS Map.prototype.set on an insertion-ordered map: overwrite in place if
the key exists (iteration keeps the original insertion position), append
otherwise. -/
def mapSet (m : List (String × α)) (k : String) (v : α) : List (String × α) :=
  if m.any (fun p => p.1 = k) then
    m.map (fun p => if p.1 = k then (k, v) else p)
  else m ++ [(k, v)]

/-- JS Map.prototype.get. -/
def mapGet (m : List (String × α)) (k : String) : Option α :=
  (m.find? (fun p => p.1 = k)).map Prod.snd

/-- Builds the per-message calls and results maps of extractCommands, both
keyed by b.toolCallId ?? "". -/
def collectCR (ts : String) (bs : List Block) :
    List (String × CallInfo) × List (String × String) :=
  bs.foldl (fun cr b =>
    match b with
    | .toolCall id name args =>
        (mapSet cr.1 (id.getD "")
           { name := name, args := truncate (serializeArgsOpt args) 500, ts := ts },
         cr.2)
    | .toolResult id _ content =>
        (cr.1, mapSet cr.2 (id.getD "") (truncate (resultText content) 300))
    | _ => cr) ([], [])

/-- Command entries emitted for one record by extractCommands: one per
captured toolCall, with resultPreview from the same message's results map
(empty string when unmatched).  Non-message records, records without a
message object and non-array content emit nothing. -/
def messageCmds (sid file : String) (e : Record) : List Cmd :=
  if e.type = "message" then
    match e.message with
    | none => []
    | some m =>
        match m.content with
        | .blocks bs =>
            let cr := collectCR (e.timestamp.getD "") bs
            cr.1.map (fun p =>
              { sessionId := sid, sessionFile := file,
                timestamp := p.2.ts, toolName := p.2.name, args := p.2.args,
                resultPreview := (mapGet cr.2 p.1).getD "" })
        | _ => []
  else []

/-- Replace the first occurrence of pat in a character sequence, or none
when pat does not occur. -/
def replFirstAux (pat repl : List Char) : List Char → Option (List Char)
  | [] => if pat.isPrefixOf ([] : List Char) then some repl else none
  | c :: cs =>
      if pat.isPrefixOf (c :: cs) then some (repl ++ (c :: cs).drop pat.length)
      else (replFirstAux pat repl cs).map (fun l => c :: l)

/-- file.replace(".jsonl", "") — JS String.replace substitutes only the
first occurrence of the pattern (the string is unchanged when the pattern
does not occur). -/
def replaceFirst (s pat repl : String) : String :=
  match replFirstAux pat.data repl.data s.data with
  | some l => ⟨l⟩
  | none => s

/-- All command entries of one file: sessionId is entries[0]?.id ??
file.replace(".jsonl", ""). -/
def fileCmds (file : String) (entries : List Record) : List Cmd :=
  let sid := (entries.head?.bind Record.id).getD (replaceFirst file ".jsonl" "")
  entries.flatMap (messageCmds sid file)

/-- The file loop of extractCommands, with the early break once the running
total reaches maxCmds (checked after each file's entries are appended). -/
def extractGo (maxCmds : Nat) : List (String × List Record) → List Cmd → List Cmd
  | [], acc => acc
  | (file, entries) :: rest, acc =>
      let acc2 := acc ++ fileCmds file entries
      if maxCmds ≤ acc2.length then acc2 else extractGo maxCmds rest acc2

/-- Stays-before relation of the final sort: the JS comparator
(a, b) => (b.timestamp > a.timestamp ? 1 : -1) keeps a before b exactly
when b.timestamp is not greater than a.timestamp (descending by timestamp
string). -/
def cmdLe (a b : Cmd) : Bool :=
  !(jsLt a.timestamp b.timestamp)

/-- Embeds extractCommands from server.mjs over the caller-visible list of
candidate session files (name and decoded records; directory enumeration,
mtime sorting and the maxFiles cut are external file-system I/O performed
before this core loop). -/
def extractCommands (files : List (String × List Record)) (maxCmds : Nat) :
    List Cmd :=
  ((extractGo maxCmds files []).mergeSort cmdLe).take maxCmds

/-- The fixed recognized memory subdirectory names (MEMORY_DIRS). -/
def MEMORY_DIRS : List String :=
  ["bugs", "decisions", "diary", "gotchas", "guide", "patterns"]

/-- JS String.prototype.startsWith. -/
def jsStartsWith (s pre : String) : Bool :=
  s.data.take pre.data.length == pre.data

/-- Node path.isAbsolute for posix paths: non-empty and first char '/'. -/
def jsIsAbsolute (s : String) : Bool :=
  s.data.head? == some '/'

/-- JS String.prototype.split on a single-character separator. -/
def jsSplitChar (s : String) (c : Char) : List String :=
  (s.data.splitOn c).map (fun l => ⟨l⟩)

/-- The segment-resolution stack of Node's normalizeString: skip empty and
"." segments, on ".." pop the top unless it is itself ".." (then, for
relative paths, push another ".."), push everything else.  The stack is
kept reversed (head = most recent segment). -/
def normStack (allowAbove : Bool) :
    List (List Char) → List (List Char) → List (List Char)
  | stack, [] => stack
  | stack, seg :: rest =>
      if seg = [] ∨ seg = ['.'] then normStack allowAbove stack rest
      else if seg = ['.', '.'] then
        match stack with
        | [] => normStack allowAbove (if allowAbove then [['.', '.']] else []) rest
        | top :: tl =>
            if top = ['.', '.'] then
              normStack allowAbove
                (if allowAbove then ['.', '.'] :: top :: tl else top :: tl) rest
            else normStack allowAbove tl rest
      else normStack allowAbove (seg :: stack) rest

/-- Resolved segments of a character sequence split on '/'. -/
def normSegs (isAbs : Bool) (cs : List Char) : List (List Char) :=
  (normStack (!isAbs) [] (cs.splitOn '/')).reverse

/-- Reassembles the resolved segments into the normalized path string: a
fully-collapsed path renders as "/", "./" or "."; otherwise the segments
are joined with '/', a trailing separator is restored, and a leading '/' is
restored for absolute paths. -/
def normBody (isAbs trailing : Bool) (outSegs : List (List Char)) : String :=
  if outSegs.isEmpty then
    (if isAbs then "/" else if trailing then "./" else ".")
  else
    let body := List.intercalate ['/'] outSegs
    let body2 := if trailing then body ++ ['/'] else body
    ⟨if isAbs then '/' :: body2 else body2⟩

/-- Node path.normalize for posix paths: "" becomes ".", "." and empty
segments are dropped, ".." segments are resolved against preceding ones
(accumulating at the front of a relative path, dropped at the root of an
absolute one), a leading '/' and a trailing '/' are preserved. -/
def normalize (p : String) : String :=
  if p = "" then "."
  else
    normBody (p.data.head? == some '/') (p.data.getLast? == some '/')
      (normSegs (p.data.head? == some '/') p.data)

/-- Embeds getMemoryFile from server.mjs.  readF stands for the external
fs.readFileSync(path.join(WORKSPACE_DIR, norm)) with its try/catch (none on
any read failure), applied to the normalized relative path. -/
def getMemoryFile (readF : String → Option String) (fp : String) : Option String :=
  let norm := normalize fp
  if jsStartsWith norm ".." || jsIsAbsolute norm then none
  else
    let parts := jsSplitChar norm '/'
    if MEMORY_DIRS.contains (parts.headD "") then readF norm else none

/-! ### Claim-side characterisations (stated from the specification's words,
for comparison with the embedded code) and concrete example inputs. -/

/-- Per-record token contribution as the spec states it: for a message
record, the selected usage field with a missing usage object or missing
field contributing 0; other records contribute 0. -/
def usageContribution (f : Usage → Option Int) (e : Record) : Int :=
  if e.type = "message" then
    (((e.message.bind Message.usage).bind f).getD 0)
  else 0

/-- The modelId value a record supplies (non-null), per the spec's
last-write-wins description: model_change records supply e.modelId, custom
model-snapshot records supply e.data.modelId. -/
def suppliedModelId (e : Record) : Option String :=
  if e.type = "model_change" then e.modelId
  else if e.type = "custom" ∧ e.customType = some "model-snapshot" then
    e.data.bind MData.modelId
  else none

/-- The provider value a record supplies, analogous to suppliedModelId. -/
def suppliedProvider (e : Record) : Option String :=
  if e.type = "model_change" then e.provider
  else if e.type = "custom" ∧ e.customType = some "model-snapshot" then
    e.data.bind MData.provider
  else none

/-- Claim-side test for a model-carrying record as claim C4 words it
(a model_change record or a custom/model-snapshot record). -/
def isModelRec (e : Record) : Bool :=
  e.type = "model_change" ∨ (e.type = "custom" ∧ e.customType = some "model-snapshot")

/-- Running lexicographic maximum over the timestamps present on records. -/
def maxTsStep (m : String) (e : Record) : String :=
  match e.timestamp with
  | some t => if jsLt m t then t else m
  | none => m

/-- Maximum (under lexicographic string comparison) of t0 and every
timestamp present on the given records. -/
def maxTimestamp (t0 : String) (entries : List Record) : String :=
  entries.foldl maxTsStep t0

/-- Claim C3's block census as stated: text, toolCall and toolResult
blocks, regardless of text content. -/
def isTCRBlock (b : Block) : Bool :=
  match b with
  | .text _ => true
  | .toolCall _ _ _ => true
  | .toolResult _ _ _ => true
  | .other => false

/-- Claim C3's predicted entry count as stated: one per text/toolCall/
toolResult block across message records plus one per model_change record. -/
def specC3count (entries : List Record) : Nat :=
  (entries.map (fun e =>
    if e.type = "model_change" then 1
    else if e.type = "message" then
      match e.message with
      | some m =>
          match m.content with
          | .blocks bs => bs.countP isTCRBlock
          | _ => 0
      | none => 0
    else 0)).sum

/-- Amended per-block census: a text block counts only when its text is
present and non-empty after trimming. -/
def countedBlock (b : Block) : Bool :=
  match b with
  | .text t => jsTrim (t.getD "") ≠ ""
  | .toolCall _ _ _ => true
  | .toolResult _ _ _ => true
  | .other => false

/-- Amended per-record entry count: one per model_change record, one per
message record with string content, one per counted block of a message
record with array content. -/
def transcriptUnitCount (e : Record) : Nat :=
  if e.type = "model_change" then 1
  else if e.type = "message" then
    match e.message with
    | some m =>
        match m.content with
        | .str _ => 1
        | .blocks bs => bs.countP countedBlock
        | .other => 0
    | none => 0
  else 0

/-- Shorthand: a message record with the given timestamp and content. -/
def msgRec (ts : Option String) (c : Content) : Record :=
  { type := "message", timestamp := ts,
    message := some { role := some "assistant", content := c } }

/-- Session header record: first line of a well-formed session file. -/
def sessionRec (id ts : Option String) : Record :=
  { type := "session", id := id, timestamp := ts }

/-- Counterexample input for claim C4: the last model-carrying record
supplies a provider but no modelId, so the summary keeps the earlier
modelId instead of the (null) one carried by the last such record. -/
def exC4 : List Record :=
  [sessionRec (some "S") (some "t0"),
   { type := "model_change", modelId := some "m1", provider := some "p1" },
   { type := "model_change", modelId := none, provider := some "p2" }]

/-- Counterexample input for claim C8: the first (session) record has no
timestamp, so the JS running maximum starts as undefined and is never
updated, although a later record carries a timestamp. -/
def exC8 : List Record :=
  [sessionRec (some "S") none,
   { type := "model_change", modelId := some "m", provider := some "p",
     timestamp := some "2024-01-01T00:00:00Z" }]

/-- Counterexample input for claim C3: one message whose only content block
is a whitespace-only text block (counted by the claim, emitted by nobody). -/
def exC3 : List Record :=
  [msgRec (some "t1") (Content.blocks [Block.text (some " ")])]

/-- Tool-call block used in the command-stream scenarios. -/
def exCallBlock : Block :=
  Block.toolCall (some "t1") (some "exec")
    (some { task := none, message := none, model := none,
            serialized := "\x7b\x22cmd\x22:\x22ls\x22\x7d" })

/-- Tool-result block with the same call id, carrying the text "done". -/
def exResBlock : Block :=
  Block.toolResult (some "t1") (some "exec") (RContent.str "done")

/-- Counterexample input for claim C2: the call and its result split across
two messages of the same file. -/
def exC2Split : List (String × List Record) :=
  [("f.jsonl",
    [msgRec (some "ta") (Content.blocks [exCallBlock]),
     msgRec (some "tb") (Content.blocks [exResBlock])])]

/-- Same-message variant for claim C2's first scenario. -/
def exC2Same : List (String × List Record) :=
  [("f.jsonl",
    [msgRec (some "ta") (Content.blocks [exCallBlock, exResBlock])])]

/-- Read stub for claim C1's counterexample: the workspace contains exactly
the file bugs/note.md. -/
def rfC1 (s : String) : Option String :=
  if s = "bugs/note.md" then some "hi" else none

/-- Summary computed by the fold on exC4 (for witnesses). -/
def sC4 : Summary :=
  { id := "S", file := "x.jsonl", startTime := some "t0",
    lastActivity := some "t0", model := some "m1", provider := some "p2",
    channel := none, messageCount := 0,
    tokenUsage := { input := 0, output := 0, cacheRead := 0, total := 0 },
    cost := 0, subAgents := [] }

/-- A small well-formed session file: out-of-order timestamps, one message
with usage, one model change. -/
def exW : List Record :=
  [sessionRec (some "S") (some "2024-01-01T00:00:00Z"),
   { type := "message", timestamp := some "2024-01-03T00:00:00Z",
     message := some { role := some "user",
                       usage := some { input := some 5, output := some 2,
                                       cacheRead := some 1, totalTokens := some 8 },
                       content := Content.str "hi" } },
   { type := "model_change", timestamp := some "2024-01-02T00:00:00Z",
     modelId := some "m", provider := some "p" }]

/-- Summary computed by the fold on exW (for witnesses). -/
def sW : Summary :=
  { id := "S", file := "x.jsonl", startTime := some "2024-01-01T00:00:00Z",
    lastActivity := some "2024-01-03T00:00:00Z", model := some "m",
    provider := some "p", channel := none, messageCount := 1,
    tokenUsage := { input := 5, output := 2, cacheRead := 1, total := 8 },
    cost := 0, subAgents := [] }

/-! ### Helper lemmas -/

/-- No character sequence is lexicographically below the empty one. -/
theorem jsLtChars_nil_right (x : List Char) : jsLtChars x [] = false := by
  cases x <;> rfl

/-- Lexicographic comparison is asymmetric. -/
theorem jsLtChars_asymm :
    ∀ x y : List Char, jsLtChars x y = true → jsLtChars y x = false := by
  intro x
  induction x with
  | nil =>
      intro y h
      cases y with
      | nil => simp [jsLtChars] at h
      | cons b bs => exact jsLtChars_nil_right _
  | cons a as ih =>
      intro y h
      cases y with
      | nil => simp [jsLtChars] at h
      | cons b bs =>
          simp only [jsLtChars] at h ⊢
          by_cases hab : a.toNat < b.toNat
          · have hba : ¬ b.toNat < a.toNat := by omega
            simp [hab, hba]
          · by_cases hba : b.toNat < a.toNat
            · simp [hab, hba] at h
            · simp only [hab, hba, if_false] at h ⊢
              simp [ih bs h]


/-- Not-less-than is transitive for lexicographic comparison. -/
theorem jsLtChars_trans_neg :
    ∀ x y z : List Char, jsLtChars x y = false → jsLtChars y z = false →
      jsLtChars x z = false := by
  intro x
  induction x with
  | nil =>
      intro y z h1 h2
      cases y with
      | nil => exact h2
      | cons b bs => simp [jsLtChars] at h1
  | cons a as ih =>
      intro y z h1 h2
      cases z with
      | nil => exact jsLtChars_nil_right _
      | cons c cs =>
          cases y with
          | nil => simp [jsLtChars] at h2
          | cons b bs =>
              simp only [jsLtChars] at h1 h2 ⊢
              by_cases hab : a.toNat < b.toNat
              · simp [hab] at h1
              · by_cases hbc : b.toNat < c.toNat
                · simp [hbc] at h2
                · by_cases hac : a.toNat < c.toNat
                  · exact absurd hac (by omega)
                  · simp only [hac, if_false]
                    by_cases hca : c.toNat < a.toNat
                    · simp [hca]
                    · simp only [hca, if_false]
                      have hba : ¬ b.toNat < a.toNat := by omega
                      have hcb : ¬ c.toNat < b.toNat := by omega
                      simp only [hab, hba, if_false] at h1
                      simp only [hbc, hcb, if_false] at h2
                      exact ih bs cs h1 h2

/-- Truncation never turns a non-empty string into an empty one. -/
theorem truncate_ne_empty (s : String) (n : Nat) (h : s ≠ "") : truncate s n ≠ "" := by
  unfold truncate
  split
  · exact h
  · intro he
    have : (String.mk (s.data.take n ++ ['…'])).data = ("" : String).data := by rw [he]
    simp at this

/-- A fold that appends a chunk per element is the flat map of the chunks. -/
theorem foldl_append_flatMap {α β : Type} (g : α → List β) :
    ∀ (l : List α) (acc : List β),
      l.foldl (fun r e => r ++ g e) acc = acc ++ l.flatMap g := by
  intro l
  induction l with
  | nil => simp
  | cons e t ih => intro acc; simp [ih, List.append_assoc]

/-- A transcript entry is emitted for a block exactly when the amended
census counts it. -/
theorem blockEntry_isSome (ts : String) (role : Option String) (b : Block) :
    (blockEntry ts role b).isSome = countedBlock b := by
  cases b with
  | text t =>
      cases t with
      | none => simp [blockEntry, countedBlock]; decide
      | some txt => by_cases h : jsTrim txt = "" <;> simp [blockEntry, countedBlock, h]
  | toolCall i n a => simp [blockEntry, countedBlock]
  | toolResult i n c => simp [blockEntry, countedBlock]
  | other => simp [blockEntry, countedBlock]

/-- Per-record transcript entry count. -/
theorem recordEntries_length (e : Record) :
    (recordEntries e).length = transcriptUnitCount e := by
  unfold recordEntries transcriptUnitCount
  by_cases h1 : e.type = "model_change"
  · simp [h1]
  · by_cases h2 : e.type = "message"
    · cases hm : e.message with
      | none => simp [h1, h2, hm]
      | some m =>
          cases hc : m.content with
          | str s => simp [h1, h2, hm, hc]
          | blocks bs =>
              simp [h1, h2, hm, hc, List.length_filterMap_eq_countP]
              exact List.countP_congr (fun b _ => by rw [blockEntry_isSome])
          | other => simp [h1, h2, hm, hc]
    · simp [h1, h2]

/-- Claim C3 (corrected): the transcript is the in-order concatenation of
each record's entries (file order, no reordering), and its length is the
sum of the amended per-record unit counts: one per model_change record, one
per message record with plain string content, and one per non-blank text /
toolCall / toolResult block of message records with array content. -/
theorem C3_transcript_order_count (entries : List Record) :
    parseTranscript entries = entries.flatMap recordEntries ∧
    (parseTranscript entries).length = (entries.map transcriptUnitCount).sum := by
  have h1 : parseTranscript entries = entries.flatMap recordEntries := by
    unfold parseTranscript
    simpa using foldl_append_flatMap recordEntries entries []
  refine ⟨h1, ?_⟩
  rw [h1, List.length_flatMap]
  congr 1
  exact List.map_congr_left (fun e _ => recordEntries_length e)

/-- Claim C3 counterexample: a message whose only content block is a
whitespace-only text block.  The claim as stated predicts one transcript
entry (one text block, no model_change records), but the builder emits
nothing because b.text?.trim() is falsy. -/
theorem C3_counterexample :
    parseTranscript exC3 = [] ∧ specC3count exC3 = 1 := by
  constructor <;> decide

/-- Claim C9: truncation is the identity on strings of length at most N,
and on longer strings returns exactly the first N characters followed by a
one-character ellipsis marker (N + 1 characters in total). -/
theorem C9_truncate_exact (s : String) (N : Nat) :
    (s.length ≤ N → truncate s N = s) ∧
    (N < s.length →
      (truncate s N).data = s.data.take N ++ ['…'] ∧
      (truncate s N).length = N + 1) := by
  constructor
  · intro h; simp [truncate, h]
  · intro h
    have h' : ¬ s.length ≤ N := Nat.not_le.mpr h
    have hd : (truncate s N).data = s.data.take N ++ ['…'] := by
      simp [truncate, h']
    refine ⟨hd, ?_⟩
    have hlen : (truncate s N).length = (truncate s N).data.length := rfl
    have hslen : s.length = s.data.length := rfl
    rw [hlen, hd]
    simp only [List.length_append, List.length_take, List.length_cons,
      List.length_nil]
    omega

/-- Witness for C9 at concrete inputs. -/
theorem C9_truncate_exact_witness :
    truncate "ab" 3 = "ab" ∧
    ((truncate "abcd" 2).data = "abcd".data.take 2 ++ ['…'] ∧
     (truncate "abcd" 2).length = 2 + 1) :=
  ⟨(C9_truncate_exact "ab" 3).1 (by decide),
   (C9_truncate_exact "abcd" 2).2 (by decide)⟩

/-- Claim C5: the summarizer returns no summary exactly when the decoded
sequence is empty or its first record's type is not "session"; otherwise a
complete summary is returned. -/
theorem C5_summary_none_iff (b1 b2 : String) (entries : List Record) :
    parseSessionSummary b1 b2 entries = none ↔
      entries = [] ∨ ∃ f t, entries = f :: t ∧ f.type ≠ "session" := by
  cases entries with
  | nil => simp [parseSessionSummary]
  | cons f t =>
      by_cases h : f.type = "session" <;>
        simp [parseSessionSummary, h]

/-- Claim C7: for every input file list and every cap, the command stream
has at most cap entries and is non-increasing under lexicographic
comparison of the timestamp strings (most recent first). -/
theorem C7_cap_and_sorted (files : List (String × List Record)) (maxCmds : Nat) :
    (extractCommands files maxCmds).length ≤ maxCmds ∧
    (extractCommands files maxCmds).Pairwise
      (fun a b => jsLt a.timestamp b.timestamp = false) := by
  constructor
  · exact List.length_take_le _ _
  · have trans : ∀ a b c : Cmd, cmdLe a b = true → cmdLe b c = true →
        cmdLe a c = true := by
      intro a b c h1 h2
      simp only [cmdLe, jsLt, Bool.not_eq_true'] at h1 h2 ⊢
      exact jsLtChars_trans_neg _ _ _ h1 h2
    have total : ∀ a b : Cmd, (cmdLe a b || cmdLe b a) = true := by
      intro a b
      simp only [cmdLe, jsLt, Bool.or_eq_true, Bool.not_eq_true']
      by_cases h : jsLtChars a.timestamp.data b.timestamp.data = true
      · exact Or.inr (jsLtChars_asymm _ _ h)
      · exact Or.inl (by simpa using h)
    have hs := List.sorted_mergeSort trans total (extractGo maxCmds files [])
    have hp := List.Pairwise.sublist (List.take_sublist maxCmds _) hs
    exact hp.imp (fun h => by simpa [cmdLe, jsLt, Bool.not_eq_true'] using h)

/-- stepTs changes no accumulator field other than lastTs. -/
theorem stepTs_keeps (st : SState) (e : Record) :
    (stepTs st e).model = st.model ∧ (stepTs st e).provider = st.provider ∧
    (stepTs st e).tokInput = st.tokInput ∧ (stepTs st e).tokOutput = st.tokOutput ∧
    (stepTs st e).tokCacheRead = st.tokCacheRead ∧
    (stepTs st e).tokTotal = st.tokTotal := by
  unfold stepTs
  repeat' split
  all_goals simp

/-- stepMC changes only model and provider. -/
theorem stepMC_keeps (st : SState) (e : Record) :
    (stepMC st e).lastTs = st.lastTs ∧
    (stepMC st e).tokInput = st.tokInput ∧ (stepMC st e).tokOutput = st.tokOutput ∧
    (stepMC st e).tokCacheRead = st.tokCacheRead ∧
    (stepMC st e).tokTotal = st.tokTotal := by
  unfold stepMC
  repeat' split
  all_goals simp

/-- stepSnap changes only model and provider. -/
theorem stepSnap_keeps (st : SState) (e : Record) :
    (stepSnap st e).lastTs = st.lastTs ∧
    (stepSnap st e).tokInput = st.tokInput ∧ (stepSnap st e).tokOutput = st.tokOutput ∧
    (stepSnap st e).tokCacheRead = st.tokCacheRead ∧
    (stepSnap st e).tokTotal = st.tokTotal := by
  unfold stepSnap
  repeat' split
  all_goals simp

/-- stepMsg never touches model, provider or lastTs. -/
theorem stepMsg_keeps (st : SState) (e : Record) :
    (stepMsg st e).model = st.model ∧ (stepMsg st e).provider = st.provider ∧
    (stepMsg st e).lastTs = st.lastTs := by
  unfold stepMsg
  by_cases ht : e.type = "message"
  · rcases hm : e.message with _ | m
    · simp [ht, hm]
    · simp only [ht, hm, if_pos rfl]
      repeat' split
      all_goals simp
  · simp [ht]

/-- stepTs computes the running lexicographic maximum of the timestamps. -/
theorem stepTs_lastTs (st : SState) (e : Record) (cur : String)
    (h : st.lastTs = some cur) :
    (stepTs st e).lastTs = some (maxTsStep cur e) := by
  unfold stepTs maxTsStep
  rcases he : e.timestamp with _ | t
  · simpa [he] using h
  · rw [h]
    by_cases ht : t = ""
    · subst ht
      have hz : jsLt cur "" = false := jsLtChars_nil_right cur.data
      simp [hz, h]
    · by_cases hlt : jsLt cur t = true
      · simp [ht, hlt]
      · simp only [Bool.not_eq_true] at hlt
        simp [ht, hlt, h]

/-- The two model branches together perform a per-field last-write-wins
update with the supplied (non-null) values. -/
theorem stepSnapMC_model (st : SState) (e : Record) :
    (stepSnap (stepMC st e) e).model = (suppliedModelId e).or st.model ∧
    (stepSnap (stepMC st e) e).provider = (suppliedProvider e).or st.provider := by
  unfold stepMC stepSnap suppliedModelId suppliedProvider
  by_cases h1 : e.type = "model_change"
  · have h2 : ¬(e.type = "custom" ∧ e.customType = some "model-snapshot") := by
      rintro ⟨hc, _⟩
      rw [h1] at hc
      exact absurd hc (by decide)
    simp [h1, h2]
  · by_cases h2 : e.type = "custom" ∧ e.customType = some "model-snapshot"
    · rcases hd : e.data with _ | d <;> simp [h1, h2, hd]
    · simp [h1, h2]

/-- Per-record token accumulation of the message branch. -/
theorem stepMsg_tok (st : SState) (e : Record) :
    (stepMsg st e).tokInput = st.tokInput + usageContribution Usage.input e ∧
    (stepMsg st e).tokOutput = st.tokOutput + usageContribution Usage.output e ∧
    (stepMsg st e).tokCacheRead = st.tokCacheRead + usageContribution Usage.cacheRead e ∧
    (stepMsg st e).tokTotal = st.tokTotal + usageContribution Usage.totalTokens e := by
  unfold stepMsg usageContribution
  by_cases ht : e.type = "message"
  · rcases hm : e.message with _ | m
    · simp [ht, hm]
    · rcases hu : m.usage with _ | u
      · simp only [ht, hm, hu, if_pos rfl]
        repeat' split
        all_goals simp [hu]
      · simp only [ht, hm, hu, if_pos rfl]
        repeat' split
        all_goals simp [hu]
  · simp [ht]

/-- Per-record token accumulation of one full loop iteration. -/
theorem step_tok (st : SState) (e : Record) :
    (step st e).tokInput = st.tokInput + usageContribution Usage.input e ∧
    (step st e).tokOutput = st.tokOutput + usageContribution Usage.output e ∧
    (step st e).tokCacheRead = st.tokCacheRead + usageContribution Usage.cacheRead e ∧
    (step st e).tokTotal = st.tokTotal + usageContribution Usage.totalTokens e := by
  obtain ⟨_, _, i1, o1, c1, t1⟩ := stepTs_keeps st e
  obtain ⟨_, i2, o2, c2, t2⟩ := stepMC_keeps (stepTs st e) e
  obtain ⟨_, i3, o3, c3, t3⟩ := stepSnap_keeps (stepMC (stepTs st e) e) e
  obtain ⟨i4, o4, c4, t4⟩ := stepMsg_tok (stepSnap (stepMC (stepTs st e) e) e) e
  unfold step
  exact ⟨by rw [i4, i3, i2, i1], by rw [o4, o3, o2, o1],
         by rw [c4, c3, c2, c1], by rw [t4, t3, t2, t1]⟩

/-- Per-record model/provider update of one full loop iteration. -/
theorem step_model (st : SState) (e : Record) :
    (step st e).model = (suppliedModelId e).or st.model ∧
    (step st e).provider = (suppliedProvider e).or st.provider := by
  obtain ⟨m1, p1, _, _, _, _⟩ := stepTs_keeps st e
  obtain ⟨hsm, hsp⟩ := stepSnapMC_model (stepTs st e) e
  obtain ⟨m4, p4, _⟩ := stepMsg_keeps (stepSnap (stepMC (stepTs st e) e) e) e
  unfold step
  exact ⟨by rw [m4, hsm, m1], by rw [p4, hsp, p1]⟩

/-- Per-record lastActivity update of one full loop iteration. -/
theorem step_lastTs (st : SState) (e : Record) (cur : String)
    (h : st.lastTs = some cur) :
    (step st e).lastTs = some (maxTsStep cur e) := by
  obtain ⟨_, _, l4⟩ := stepMsg_keeps (stepSnap (stepMC (stepTs st e) e) e) e
  obtain ⟨l3, _, _, _, _⟩ := stepSnap_keeps (stepMC (stepTs st e) e) e
  obtain ⟨l2, _, _, _, _⟩ := stepMC_keeps (stepTs st e) e
  unfold step
  rw [l4, l3, l2]
  exact stepTs_lastTs st e cur h

/-- Token accumulators of the full fold. -/
theorem foldl_tok (entries : List Record) : ∀ st : SState,
    (entries.foldl step st).tokInput =
      st.tokInput + (entries.map (usageContribution Usage.input)).sum ∧
    (entries.foldl step st).tokOutput =
      st.tokOutput + (entries.map (usageContribution Usage.output)).sum ∧
    (entries.foldl step st).tokCacheRead =
      st.tokCacheRead + (entries.map (usageContribution Usage.cacheRead)).sum ∧
    (entries.foldl step st).tokTotal =
      st.tokTotal + (entries.map (usageContribution Usage.totalTokens)).sum := by
  induction entries with
  | nil => intro st; simp
  | cons e t ih =>
      intro st
      obtain ⟨hi, ho, hc, htt⟩ := step_tok st e
      obtain ⟨ii, io, ic, it⟩ := ih (step st e)
      refine ⟨?_, ?_, ?_, ?_⟩ <;>
        simp only [List.foldl_cons, List.map_cons, List.sum_cons, ii, io, ic, it,
          hi, ho, hc, htt] <;> omega

/-- Appending to a list moves its last element. -/
theorem getLast?_cons_or {α : Type} (v : α) (l : List α) :
    (v :: l).getLast? = l.getLast?.or (some v) := by
  induction l generalizing v with
  | nil => simp
  | cons x xs ih =>
      rw [List.getLast?_cons_cons, ih x, Option.or_assoc, Option.or_some]

/-- Model/provider of the full fold: last non-null supplied value wins. -/
theorem foldl_model (entries : List Record) : ∀ st : SState,
    (entries.foldl step st).model =
      ((entries.filterMap suppliedModelId).getLast?).or st.model ∧
    (entries.foldl step st).provider =
      ((entries.filterMap suppliedProvider).getLast?).or st.provider := by
  induction entries with
  | nil => intro st; simp
  | cons e t ih =>
      intro st
      obtain ⟨hm, hp⟩ := step_model st e
      obtain ⟨im, ip⟩ := ih (step st e)
      constructor
      · rw [List.foldl_cons, im, hm, List.filterMap_cons]
        cases hfe : suppliedModelId e with
        | none => simp
        | some v => rw [getLast?_cons_or, Option.or_assoc]
      · rw [List.foldl_cons, ip, hp, List.filterMap_cons]
        cases hfe : suppliedProvider e with
        | none => simp
        | some v => rw [getLast?_cons_or, Option.or_assoc]

/-- lastActivity of the full fold is the running lexicographic maximum. -/
theorem foldl_lastTs (entries : List Record) : ∀ (st : SState) (cur : String),
    st.lastTs = some cur →
      (entries.foldl step st).lastTs = some (entries.foldl maxTsStep cur) := by
  induction entries with
  | nil => intro st cur h; simpa using h
  | cons e t ih =>
      intro st cur h
      rw [List.foldl_cons, List.foldl_cons]
      exact ih (step st e) (maxTsStep cur e) (step_lastTs st e cur h)

/-- Claim C6: the summary's token usage equals the per-field sums of the
message records' usage fields, absent fields contributing 0. -/
theorem C6_token_sums (b1 b2 : String) (entries : List Record) (s : Summary)
    (h : parseSessionSummary b1 b2 entries = some s) :
    s.tokenUsage.input = (entries.map (usageContribution Usage.input)).sum ∧
    s.tokenUsage.output = (entries.map (usageContribution Usage.output)).sum ∧
    s.tokenUsage.cacheRead = (entries.map (usageContribution Usage.cacheRead)).sum ∧
    s.tokenUsage.total = (entries.map (usageContribution Usage.totalTokens)).sum := by
  cases entries with
  | nil => simp [parseSessionSummary] at h
  | cons first rest =>
      by_cases ht : first.type = "session"
      · simp only [parseSessionSummary, ht, ne_eq, not_true_eq_false, if_false,
          Option.some.injEq] at h
        obtain ⟨hi, ho, hc, htt⟩ := foldl_tok (first :: rest) (initState first)
        rw [← h]
        simp only [initState, zero_add] at hi ho hc htt
        exact ⟨hi, ho, hc, htt⟩
      · simp [parseSessionSummary, ht] at h

/-- Witness for C6 on a concrete session file. -/
theorem C6_token_sums_witness :
    sW.tokenUsage.input = (exW.map (usageContribution Usage.input)).sum ∧
    sW.tokenUsage.output = (exW.map (usageContribution Usage.output)).sum ∧
    sW.tokenUsage.cacheRead = (exW.map (usageContribution Usage.cacheRead)).sum ∧
    sW.tokenUsage.total = (exW.map (usageContribution Usage.totalTokens)).sum :=
  C6_token_sums "x" "x.jsonl" exW sW (by decide)

/-- Claim C4 (corrected): model and provider are per-field last-write-wins
over the non-null values supplied by model_change and model-snapshot
records — the summary's model is the last non-null modelId supplied by such
a record (null if none supplies one), and likewise, independently, for
provider. -/
theorem C4_model_last_write (b1 b2 : String) (entries : List Record) (s : Summary)
    (h : parseSessionSummary b1 b2 entries = some s) :
    s.model = (entries.filterMap suppliedModelId).getLast? ∧
    s.provider = (entries.filterMap suppliedProvider).getLast? := by
  cases entries with
  | nil => simp [parseSessionSummary] at h
  | cons first rest =>
      by_cases ht : first.type = "session"
      · simp only [parseSessionSummary, ht, ne_eq, not_true_eq_false, if_false,
          Option.some.injEq] at h
        obtain ⟨hm, hp⟩ := foldl_model (first :: rest) (initState first)
        rw [← h]
        simp only [initState, Option.or_none] at hm hp
        exact ⟨hm, hp⟩
      · simp [parseSessionSummary, ht] at h

/-- Claim C4 counterexample: in exC4 the last model-carrying record carries
no modelId (null) and provider "p2", yet the summary's model is "m1" from
the earlier record — the summary does not equal the last record's values. -/
theorem C4_counterexample :
    ((exC4.filter isModelRec).getLast?).map (fun e => (e.modelId, e.provider)) =
        some (none, some "p2") ∧
    (parseSessionSummary "x" "x.jsonl" exC4).map (fun s => (s.model, s.provider)) =
        some (some "m1", some "p2") := by
  constructor <;> decide

/-- Witness for C4 (amended) on the same concrete file. -/
theorem C4_model_last_write_witness :
    sC4.model = (exC4.filterMap suppliedModelId).getLast? ∧
    sC4.provider = (exC4.filterMap suppliedProvider).getLast? :=
  C4_model_last_write "x" "x.jsonl" exC4 sC4 (by decide)

/-- Claim C8 (corrected): when the first record carries a timestamp, the
summary's lastActivity is the lexicographic maximum of that timestamp and
every timestamp present on the file's records, regardless of order.  (When
the first record has no timestamp the accumulator stays absent forever:
see the counterexample.) -/
theorem C8_last_activity (b1 b2 : String) (entries : List Record) (s : Summary)
    (t0 : String) (h : parseSessionSummary b1 b2 entries = some s)
    (h0 : entries.head?.bind Record.timestamp = some t0) :
    s.lastActivity = some (maxTimestamp t0 entries) := by
  cases entries with
  | nil => simp [parseSessionSummary] at h
  | cons first rest =>
      by_cases ht : first.type = "session"
      · simp only [parseSessionSummary, ht, ne_eq, not_true_eq_false, if_false,
          Option.some.injEq] at h
        simp only [List.head?_cons, Option.some_bind] at h0
        rw [← h]
        have hinit : (initState first).lastTs = some t0 := by
          simp [initState, h0]
        exact foldl_lastTs (first :: rest) (initState first) t0 hinit
      · simp [parseSessionSummary, ht] at h

/-- Claim C8 counterexample: the first (session) record has no timestamp,
so lastActivity stays absent although a later record carries "2024-...". -/
theorem C8_counterexample :
    (parseSessionSummary "x" "x.jsonl" exC8).map Summary.lastActivity = some none ∧
    exC8.filterMap Record.timestamp = ["2024-01-01T00:00:00Z"] := by
  constructor <;> decide

/-- Witness for C8 (amended) on a concrete file with out-of-order
timestamps. -/
theorem C8_last_activity_witness :
    sW.lastActivity = some (maxTimestamp "2024-01-01T00:00:00Z" exW) :=
  C8_last_activity "x" "x.jsonl" exW sW "2024-01-01T00:00:00Z" (by decide) (by decide)

/-- A file contributing exactly one command entry passes through the
extractor unchanged (no early break, singleton sort, cap untouched). -/
theorem extractCommands_one (f : String) (es : List Record) (c : Cmd)
    (h : fileCmds f es = [c]) :
    extractCommands [(f, es)] 200 = [c] := by
  unfold extractCommands extractGo
  simp only [List.nil_append, h, List.length_cons, List.length_nil]
  norm_num
  rw [show extractGo 200 [] [c] = [c] from rfl, List.mergeSort_singleton]
  rfl

/-- Claim C2 (corrected): a toolCall and the toolResult with the same call
id in the same message yield exactly one command entry whose resultPreview
is the (non-empty) matched result text; the same pair split across two
messages yields exactly ONE entry — from the toolCall's message, with an
empty resultPreview — because a toolResult block alone never emits an
entry. -/
theorem C2_call_result_pairing (ts1 ts2 cid n nr : Option String)
    (a : Option Args) (r : String) (hr : r ≠ "") :
    ((extractCommands [("f.jsonl",
        [msgRec ts1 (Content.blocks
          [Block.toolCall cid n a, Block.toolResult cid nr (RContent.str r)])])] 200).map
        Cmd.resultPreview = [truncate r 300] ∧ truncate r 300 ≠ "") ∧
    (extractCommands [("f.jsonl",
        [msgRec ts1 (Content.blocks [Block.toolCall cid n a]),
         msgRec ts2 (Content.blocks [Block.toolResult cid nr (RContent.str r)])])] 200).map
        Cmd.resultPreview = [""] := by
  refine ⟨⟨?_, truncate_ne_empty r 300 hr⟩, ?_⟩
  · have h1 : fileCmds "f.jsonl"
        [msgRec ts1 (Content.blocks
          [Block.toolCall cid n a, Block.toolResult cid nr (RContent.str r)])] =
        [{ sessionId := replaceFirst "f.jsonl" ".jsonl" "", sessionFile := "f.jsonl",
           timestamp := ts1.getD "", toolName := n,
           args := truncate (serializeArgsOpt a) 500,
           resultPreview := truncate r 300 }] := by
      simp [fileCmds, messageCmds, msgRec, collectCR, mapSet, mapGet, resultText, List.find?]
    rw [extractCommands_one _ _ _ h1]
    rfl
  · have h2 : fileCmds "f.jsonl"
        [msgRec ts1 (Content.blocks [Block.toolCall cid n a]),
         msgRec ts2 (Content.blocks [Block.toolResult cid nr (RContent.str r)])] =
        [{ sessionId := replaceFirst "f.jsonl" ".jsonl" "", sessionFile := "f.jsonl",
           timestamp := ts1.getD "", toolName := n,
           args := truncate (serializeArgsOpt a) 500,
           resultPreview := "" }] := by
      simp [fileCmds, messageCmds, msgRec, collectCR, mapSet, mapGet, resultText, List.find?]
    rw [extractCommands_one _ _ _ h2]
    rfl

/-- Witness for C2 (amended) at concrete inputs. -/
theorem C2_call_result_pairing_witness :
    ((extractCommands exC2Same 200).map Cmd.resultPreview = [truncate "done" 300] ∧
      truncate "done" 300 ≠ "") ∧
    (extractCommands exC2Split 200).map Cmd.resultPreview = [""] :=
  C2_call_result_pairing (some "ta") (some "tb") (some "t1") (some "exec")
    (some "exec")
    (some { task := none, message := none, model := none,
            serialized := "\x7b\x22cmd\x22:\x22ls\x22\x7d" })
    "done" (by decide)

/-- Claim C2 counterexample: the split call/result pair produces one
command entry, not two. -/
theorem C2_counterexample :
    (extractCommands exC2Split 200).length = 1 := by
  have h2 : extractCommands exC2Split 200 =
      [{ sessionId := replaceFirst "f.jsonl" ".jsonl" "", sessionFile := "f.jsonl",
         timestamp := "ta", toolName := some "exec",
         args := truncate (serializeArgsOpt (some
           { task := none, message := none, model := none,
             serialized := "\x7b\x22cmd\x22:\x22ls\x22\x7d" })) 500,
         resultPreview := "" }] := by
    apply extractCommands_one
    decide
  rw [h2]
  rfl

/-- Claim C10: within one message, toolCall and toolResult blocks are
keyed by their call id with a missing id treated as the empty string — two
toolCall blocks with the same key produce a single entry taken from the
later block, and an id-less toolResult matches an id-less toolCall. -/
theorem C10_same_key (sid file : String) (ts id1 id2 n1 n2 nr : Option String)
    (a1 a2 : Option Args) (r : String)
    (h : id1.getD "" = id2.getD "") :
    messageCmds sid file (msgRec ts (Content.blocks
      [Block.toolCall id1 n1 a1, Block.toolCall id2 n2 a2])) =
      [{ sessionId := sid, sessionFile := file, timestamp := ts.getD "",
         toolName := n2, args := truncate (serializeArgsOpt a2) 500,
         resultPreview := "" }] ∧
    messageCmds sid file (msgRec ts (Content.blocks
      [Block.toolCall none n1 a1, Block.toolResult none nr (RContent.str r)])) =
      [{ sessionId := sid, sessionFile := file, timestamp := ts.getD "",
         toolName := n1, args := truncate (serializeArgsOpt a1) 500,
         resultPreview := truncate r 300 }] := by
  constructor
  · simp [messageCmds, msgRec, collectCR, mapSet, mapGet, resultText, List.find?, ← h]
  · simp [messageCmds, msgRec, collectCR, mapSet, mapGet, resultText, List.find?]

/-- Witness for C10 at concrete inputs. -/
theorem C10_same_key_witness :
    messageCmds "s" "f.jsonl" (msgRec (some "t") (Content.blocks
      [Block.toolCall (some "x") (some "read") none,
       Block.toolCall (some "x") (some "write") none])) =
      [{ sessionId := "s", sessionFile := "f.jsonl", timestamp := "t",
         toolName := some "write", args := truncate (serializeArgsOpt none) 500,
         resultPreview := "" }] ∧
    messageCmds "s" "f.jsonl" (msgRec (some "t") (Content.blocks
      [Block.toolCall none (some "read") none,
       Block.toolResult none (some "read") (RContent.str "ok")])) =
      [{ sessionId := "s", sessionFile := "f.jsonl", timestamp := "t",
         toolName := some "read", args := truncate (serializeArgsOpt none) 500,
         resultPreview := truncate "ok" 300 }] :=
  C10_same_key "s" "f.jsonl" (some "t") (some "x") (some "x") (some "read")
    (some "write") (some "read") none none "ok" (by decide)

/-- Chunks produced by splitting on a separator never contain it. -/
theorem splitOn_sep_not_mem {α : Type} [DecidableEq α] (c : α) (xs : List α) :
    ∀ l ∈ xs.splitOn c, c ∉ l := by
  unfold List.splitOn
  induction xs with
  | nil =>
      intro l hl
      rw [List.splitOnP_nil] at hl
      simp only [List.mem_singleton] at hl
      subst hl
      simp
  | cons x t ih =>
      intro l hl
      rw [List.splitOnP_cons] at hl
      by_cases hx : (x == c) = true
      · rw [if_pos hx] at hl
        rcases List.mem_cons.mp hl with hl | hl
        · subst hl; simp
        · exact ih l hl
      · rw [if_neg hx] at hl
        rcases hsp : t.splitOnP (· == c) with _ | ⟨h0, t0⟩
        · exact absurd hsp (List.splitOnP_ne_nil _ t)
        · rw [hsp] at hl
          simp only [List.modifyHead, List.mem_cons] at hl
          rcases hl with hl | hl
          · subst hl
            intro hc
            rcases List.mem_cons.mp hc with hc | hc
            · exact hx (by simp [hc])
            · exact ih h0 (by rw [hsp]; exact List.mem_cons_self _ _) hc
          · exact ih l (by rw [hsp]; exact List.mem_cons_of_mem _ hl)

/-- intercalate on a single chunk is that chunk. -/
theorem intercalate_one {α : Type} (s a : List α) : List.intercalate s [a] = a := by
  simp [List.intercalate]

/-- intercalate distributes over the head of a two-or-more chunk list. -/
theorem intercalate_two {α : Type} (s a b : List α) (t : List (List α)) :
    List.intercalate s (a :: b :: t) = a ++ s ++ List.intercalate s (b :: t) := by
  simp [List.intercalate, List.append_assoc]

/-- The head chunk is a prefix of the intercalation. -/
theorem intercalate_head_pre {α : Type} (s a : List α) (t : List (List α)) :
    ∃ X, List.intercalate s (a :: t) = a ++ X := by
  cases t with
  | nil => exact ⟨[], by simp [intercalate_one]⟩
  | cons b t2 =>
      exact ⟨s ++ List.intercalate s (b :: t2), by
        rw [intercalate_two]; simp [List.append_assoc]⟩

/-- Appending an empty chunk appends one separator. -/
theorem intercalate_concat_nil {α : Type} (s : List α) :
    ∀ ls : List (List α), ls ≠ [] →
      List.intercalate s (ls ++ [([] : List α)]) = List.intercalate s ls ++ s := by
  intro ls
  induction ls with
  | nil => intro h; exact absurd rfl h
  | cons a t ih =>
      intro _
      cases t with
      | nil =>
          show List.intercalate s (a :: [] :: []) = List.intercalate s [a] ++ s
          rw [intercalate_two, intercalate_one, intercalate_one]
          simp
      | cons b t2 =>
          show List.intercalate s (a :: ((b :: t2) ++ [[]])) = _
          rw [List.cons_append] at *
          rw [intercalate_two, ih (by simp), intercalate_two]
          simp [List.append_assoc]

/-- Invariant of the normalizeString stack: all ".." segments sit at the
bottom (they were pushed only when nothing was left to pop), and every
other segment is a non-empty, separator-free path component. -/
def GoodStack (stack : List (List Char)) : Prop :=
  ∃ front k, stack = front ++ List.replicate k ['.', '.'] ∧
    ['.', '.'] ∉ front ∧ ∀ l ∈ front, l ≠ [] ∧ '/' ∉ l

/-- The resolution loop preserves the stack invariant. -/
theorem normStack_good (allow : Bool) :
    ∀ (segs : List (List Char)) (stack : List (List Char)),
      (∀ seg ∈ segs, '/' ∉ seg) → GoodStack stack →
      GoodStack (normStack allow stack segs) := by
  intro segs
  induction segs with
  | nil => intro stack _ hg; simpa [normStack] using hg
  | cons seg rest ih =>
      intro stack h hg
      have hseg : '/' ∉ seg := h seg (List.mem_cons_self _ _)
      have hrest : ∀ s ∈ rest, '/' ∉ s := fun s hs => h s (List.mem_cons_of_mem _ hs)
      unfold normStack
      by_cases h1 : seg = [] ∨ seg = ['.']
      · rw [if_pos h1]; exact ih _ hrest hg
      · rw [if_neg h1]
        by_cases h2 : seg = ['.', '.']
        · rw [if_pos h2]
          obtain ⟨front, k, hst, hnf, hcond⟩ := hg
          split
          · -- stack ran empty
            apply ih _ hrest
            cases allow with
            | false => exact ⟨[], 0, by simp, by simp, by simp⟩
            | true => exact ⟨[], 1, by simp, by simp, by simp⟩
          · rename_i top tl
            by_cases htop : top = ['.', '.']
            · rw [if_pos htop]
              apply ih _ hrest
              have hfront : front = [] := by
                cases hf : front with
                | nil => rfl
                | cons f fr =>
                    exfalso
                    apply hnf
                    rw [hf]
                    have hft : f = top := by
                      rw [hf, List.cons_append] at hst
                      exact ((List.cons.injEq _ _ _ _).mp hst).1.symm
                    rw [hft, htop]
                    exact List.mem_cons_self _ _
              have hkpos : top :: tl = List.replicate k ['.', '.'] := by
                rw [hst, hfront, List.nil_append]
              cases allow with
              | true =>
                  refine ⟨[], k + 1, ?_, by simp, by simp⟩
                  simp only [if_pos rfl, hkpos, List.nil_append]
                  rfl
              | false =>
                  refine ⟨[], k, ?_, by simp, by simp⟩
                  simp only [List.nil_append]
                  rw [if_neg (by simp), hkpos]
            · rw [if_neg htop]
              apply ih _ hrest
              cases hf : front with
              | nil =>
                  exfalso
                  rw [hf, List.nil_append] at hst
                  cases k with
                  | zero => simp at hst
                  | succ k2 =>
                      apply htop
                      have hrep : top :: tl = ['.', '.'] :: List.replicate k2 ['.', '.'] := by
                        rw [hst]; rfl
                      exact ((List.cons.injEq _ _ _ _).mp hrep).1
              | cons f fr =>
                  rw [hf, List.cons_append] at hst
                  have heq := (List.cons.injEq _ _ _ _).mp hst
                  refine ⟨fr, k, heq.2, ?_, ?_⟩
                  · intro hmem
                    exact hnf (by rw [hf]; exact List.mem_cons_of_mem _ hmem)
                  · intro l hl
                    exact hcond l (by rw [hf]; exact List.mem_cons_of_mem _ hl)
        · rw [if_neg h2]
          apply ih _ hrest
          obtain ⟨front, k, hst, hnf, hcond⟩ := hg
          refine ⟨seg :: front, k, by rw [hst, List.cons_append], ?_, ?_⟩
          · intro hmem
            rcases List.mem_cons.mp hmem with hh | hh
            · exact h2 hh.symm
            · exact hnf hh
          · intro l hl
            rcases List.mem_cons.mp hl with hh | hh
            · subst hh
              refine ⟨?_, hseg⟩
              intro hnil
              exact h1 (Or.inl hnil)
            · exact hcond l hh

/-- A normalized absolute path is still absolute. -/
theorem normBody_abs (trailing : Bool) (segs : List (List Char)) :
    jsIsAbsolute (normBody true trailing segs) = true := by
  unfold normBody jsIsAbsolute
  by_cases hse : segs.isEmpty = true
  · rw [if_pos hse]
    rfl
  · rw [if_neg hse]
    rfl

/-- Splitting a reassembled relative path recovers its segments (plus one
empty chunk when a trailing separator was restored). -/
theorem parts_normBody (trailing : Bool) (outSegs : List (List Char))
    (hne : outSegs ≠ []) (hx : ∀ l ∈ outSegs, '/' ∉ l) :
    jsSplitChar (normBody false trailing outSegs) '/' =
      outSegs.map (fun l => (⟨l⟩ : String)) ++ (if trailing then [""] else []) := by
  cases trailing with
  | false =>
      have hb : normBody false false outSegs = ⟨List.intercalate ['/'] outSegs⟩ := by
        unfold normBody
        rw [if_neg (by simpa using hne)]
        rfl
      rw [hb]
      show (List.splitOn '/' (List.intercalate ['/'] outSegs)).map
        (fun l => (⟨l⟩ : String)) = _
      rw [List.splitOn_intercalate _ '/' hx hne]
      simp
  | true =>
      have hb : normBody false true outSegs =
          ⟨List.intercalate ['/'] outSegs ++ ['/']⟩ := by
        unfold normBody
        rw [if_neg (by simpa using hne)]
        rfl
      rw [hb]
      show (List.splitOn '/' (List.intercalate ['/'] outSegs ++ ['/'])).map
        (fun l => (⟨l⟩ : String)) = _
      rw [← intercalate_concat_nil ['/'] outSegs hne]
      have hx2 : ∀ l ∈ outSegs ++ [([] : List Char)], '/' ∉ l := by
        intro l hl
        rcases List.mem_append.mp hl with hl | hl
        · exact hx l hl
        · simp only [List.mem_singleton] at hl
          subst hl
          simp
      rw [List.splitOn_intercalate _ '/' hx2 (by simp)]
      simp

/-- After normalization, a relative path that does not start with ".."
contains no ".." segment at all: normalizeString pushes ".." only onto a
stack of ".."s, so surviving ".." segments are all leading. -/
theorem normalize_no_dotdot (fp : String)
    (h1 : jsStartsWith (normalize fp) ".." = false)
    (h2 : jsIsAbsolute (normalize fp) = false) :
    ".." ∉ jsSplitChar (normalize fp) '/' := by
  by_cases hfp : fp = ""
  · subst hfp
    decide
  · have hnorm : normalize fp =
        normBody (fp.data.head? == some '/') (fp.data.getLast? == some '/')
          (normSegs (fp.data.head? == some '/') fp.data) := by
      unfold normalize
      rw [if_neg hfp]
    rw [hnorm] at h1 h2 ⊢
    have hgood := normStack_good (!(fp.data.head? == some '/')) (fp.data.splitOn '/') []
      (fun seg hs => splitOn_sep_not_mem '/' fp.data seg hs)
      ⟨[], 0, rfl, by simp, by simp⟩
    obtain ⟨front, k, hst, hnf, hcond⟩ := hgood
    have houts : normSegs (fp.data.head? == some '/') fp.data =
        List.replicate k ['.', '.'] ++ front.reverse := by
      unfold normSegs
      rw [hst, List.reverse_append, List.reverse_replicate]
    by_cases habs : (fp.data.head? == some '/') = true
    · exfalso
      rw [habs, normBody_abs] at h2
      exact Bool.noConfusion h2
    · have habs' : (fp.data.head? == some '/') = false := by
        simpa using habs
      rw [habs'] at houts h1 ⊢
      rw [houts] at h1 ⊢
      cases k with
        | succ k2 =>
            exfalso
            rw [List.replicate_succ, List.cons_append] at h1
            obtain ⟨X, hX⟩ := intercalate_head_pre ['/'] ['.', '.']
              (List.replicate k2 ['.', '.'] ++ front.reverse)
            have hstarts : ∀ Z : List Char,
                jsStartsWith ⟨['.', '.'] ++ Z⟩ ".." = true := fun Z => rfl
            cases htr : (fp.data.getLast? == some '/') with
            | true =>
                rw [htr] at h1
                have hb : normBody false true
                    (['.', '.'] :: (List.replicate k2 ['.', '.'] ++ front.reverse)) =
                    ⟨(['.', '.'] ++ X) ++ ['/']⟩ := by
                  unfold normBody
                  rw [if_neg (by simp), hX]
                  rfl
                rw [hb, List.append_assoc, hstarts] at h1
                exact Bool.noConfusion h1
            | false =>
                rw [htr] at h1
                have hb : normBody false false
                    (['.', '.'] :: (List.replicate k2 ['.', '.'] ++ front.reverse)) =
                    ⟨['.', '.'] ++ X⟩ := by
                  unfold normBody
                  rw [if_neg (by simp), hX]
                  rfl
                rw [hb, hstarts] at h1
                exact Bool.noConfusion h1
        | zero =>
            rw [List.replicate_zero, List.nil_append] at h1 ⊢
            by_cases hfe : front.reverse = []
            · rw [hfe]
              unfold normBody
              rw [if_pos (by simp)]
              cases (fp.data.getLast? == some '/') with
              | true => decide
              | false => decide
            · rw [parts_normBody _ _ hfe
                (fun l hl => (hcond l (List.mem_reverse.mp hl)).2)]
              intro hmem
              rcases List.mem_append.mp hmem with hmem | hmem
              · obtain ⟨l, hl, hml⟩ := List.mem_map.mp hmem
                have hld : l = ['.', '.'] := by
                  have : (String.mk l).data = (".." : String).data := by rw [hml]
                  exact this
                rw [hld] at hl
                exact hnf (List.mem_reverse.mp hl)
              · split at hmem
                · simp only [List.mem_singleton] at hmem
                  exact absurd hmem (by decide)
                · simp at hmem

/-- Claim C1 (corrected): the guard conditions hold of the NORMALIZED
path, not the raw request.  The three probe requests are rejected, and
whenever file content is returned, the normalized path's first segment is
a recognized memory subdirectory, the normalized path contains no ".."
segment and is not absolute, and the content is the read of that
normalized relative path; every other request yields the not-found
signal.  (A raw request such as "bugs/x/../note.md" contains a ".."
segment yet is served, because the guard runs after normalization.) -/
theorem C1_memory_path_guard (readF : String → Option String) (fp : String) :
    (getMemoryFile readF "../secret" = none ∧
     getMemoryFile readF "/etc/passwd" = none ∧
     getMemoryFile readF "unknownDir/file.txt" = none) ∧
    ∀ c, getMemoryFile readF fp = some c →
      ((jsSplitChar (normalize fp) '/').headD "" ∈ MEMORY_DIRS ∧
       ".." ∉ jsSplitChar (normalize fp) '/' ∧
       jsIsAbsolute (normalize fp) = false ∧
       readF (normalize fp) = some c) := by
  refine ⟨⟨rfl, rfl, rfl⟩, ?_⟩
  intro c h
  unfold getMemoryFile at h
  by_cases hg : (jsStartsWith (normalize fp) ".." || jsIsAbsolute (normalize fp)) = true
  · rw [if_pos hg] at h
    exact absurd h (by simp)
  · rw [if_neg hg] at h
    have hg2 : jsStartsWith (normalize fp) ".." = false ∧
        jsIsAbsolute (normalize fp) = false := by
      constructor <;> [skip; skip] <;>
        · revert hg
          cases jsStartsWith (normalize fp) ".." <;>
            cases jsIsAbsolute (normalize fp) <;> simp
    by_cases hm : MEMORY_DIRS.contains
        ((jsSplitChar (normalize fp) '/').headD "") = true
    · rw [if_pos hm] at h
      refine ⟨?_, normalize_no_dotdot fp hg2.1 hg2.2, hg2.2, h⟩
      exact List.elem_iff.mp hm
    · rw [if_neg hm] at h
      exact absurd h (by simp)

/-- Claim C1 counterexample: the raw request "bugs/x/../note.md" contains
a parent-traversal segment, yet the file content is returned (the guard
checks the normalized path "bugs/note.md"). -/
theorem C1_counterexample :
    ".." ∈ jsSplitChar "bugs/x/../note.md" '/' ∧
    getMemoryFile rfC1 "bugs/x/../note.md" = some "hi" := by
  constructor
  · decide
  · rfl

/-- Witness for C1 (amended): the rejections, and the acceptance facts at
a concrete accepted request. -/
theorem C1_memory_path_guard_witness :
    (getMemoryFile rfC1 "../secret" = none ∧
     getMemoryFile rfC1 "/etc/passwd" = none ∧
     getMemoryFile rfC1 "unknownDir/file.txt" = none) ∧
    ((jsSplitChar (normalize "bugs/note.md") '/').headD "" ∈ MEMORY_DIRS ∧
     ".." ∉ jsSplitChar (normalize "bugs/note.md") '/' ∧
     jsIsAbsolute (normalize "bugs/note.md") = false ∧
     rfC1 (normalize "bugs/note.md") = some "hi") := by
  have hw := C1_memory_path_guard rfC1 "bugs/note.md"
  refine ⟨hw.1, hw.2 "hi" ?_⟩
  rfl

end Openclaw

